import Mathlib

/-!
Verification of the deterministic extraction/composition pipeline of the
notes-to-email application: the email composer (`src/utils/format.ts`:
`formatWhen`, `introLine`, `signoffFor`, `composeEmail`, `subjectFrom`)
and the heuristic extractor plus request validation of the generate
endpoint (`src/app/api/generate/route.ts`).

Strings are modelled as Lean `String` (a packed `List Char`); JavaScript
`.length`, `.slice` and company are modelled on characters, which agrees
with UTF-16 code units for all of the basic-multilingual-plane text the
program manipulates.  JavaScript built-ins that the source calls
(`String.prototype.trim`, `String.prototype.split` on the regex
`/\r?\n/`, regex `test`/`match`, `new Date`, `toLocaleDateString`) are
given explicit executable models; each model carries a doc comment
stating its scope.
-/

namespace NTM

/-! ### Character classes (models of JavaScript regex classes) -/

/-- Model of the JavaScript regex word-character class `\w` = `[A-Za-z0-9_]`,
which is what the word-boundary assertion `\b` is defined from.
`Char.isAlpha`/`Char.isDigit` are exactly the ASCII letter/digit tests. -/
def isWordChar (c : Char) : Bool := c.isAlpha || c.isDigit || c == '_'

/-- Model of JavaScript whitespace (`\s`, and the characters removed by
`String.prototype.trim`), restricted to the ASCII whitespace characters
space, tab, CR, LF, vertical tab, form feed. -/
def jsWS (c : Char) : Bool := c.isWhitespace || c == '\x0b' || c == '\x0c'

/-- Model of `String.prototype.trim` on a character list. -/
def jsTrimL (cs : List Char) : List Char :=
  ((cs.dropWhile jsWS).reverse.dropWhile jsWS).reverse

/-- Model of `String.prototype.trim`. -/
def jsTrimS (s : String) : String := ⟨jsTrimL s.data⟩

/-! ### Dates: model of `new Date(s)` / `toLocaleDateString` -/

/-- A parsed calendar date. -/
structure YMD where
  year : Nat
  month : Nat
  day : Nat
deriving DecidableEq, Repr

def isLeapYear (y : Nat) : Bool :=
  (y % 4 == 0 && y % 100 != 0) || y % 400 == 0

def daysInMonth (y m : Nat) : Nat :=
  if m = 2 then (if isLeapYear y then 29 else 28)
  else if m = 4 ∨ m = 6 ∨ m = 9 ∨ m = 11 then 30
  else 31

def digitVal (c : Char) : Nat := c.toNat - 48

/-- Model of the date parsing performed by `new Date(s)` in
`formatWhen`, restricted to the ISO `YYYY-MM-DD` date-only format of the
ECMAScript date-time string format: exactly ten characters, digits in
the year/month/day positions, month `01`-`12`, day within the month.
Every other string is treated as unparseable (`Invalid Date`). -/
def jsParseDate (cs : List Char) : Option YMD :=
  match cs with
  | [y1, y2, y3, y4, '-', m1, m2, '-', d1, d2] =>
    if y1.isDigit && y2.isDigit && y3.isDigit && y4.isDigit &&
       m1.isDigit && m2.isDigit && d1.isDigit && d2.isDigit then
      let y := digitVal y1 * 1000 + digitVal y2 * 100 + digitVal y3 * 10 + digitVal y4
      let m := digitVal m1 * 10 + digitVal m2
      let d := digitVal d1 * 10 + digitVal d2
      if 1 ≤ m ∧ m ≤ 12 ∧ 1 ≤ d ∧ d ≤ daysInMonth y m then some ⟨y, m, d⟩ else none
    else none
  | _ => none

def monthAbbrev (m : Nat) : String :=
  match m with
  | 1 => "Jan" | 2 => "Feb" | 3 => "Mar" | 4 => "Apr" | 5 => "May" | 6 => "Jun"
  | 7 => "Jul" | 8 => "Aug" | 9 => "Sep" | 10 => "Oct" | 11 => "Nov" | 12 => "Dec"
  | _ => ""

/-- The decimal digits of `n`, most significant first, valid for
`n < 10000` (enough for a day number and a four-digit year). -/
def digitSeq (n : Nat) : List Nat :=
  if n < 10 then [n]
  else if n < 100 then [n / 10, n % 10]
  else if n < 1000 then [n / 100, n / 10 % 10, n % 10]
  else [n / 1000 % 10, n / 100 % 10, n / 10 % 10, n % 10]

/-- The character of one decimal digit (every entry of `digitSeq` is
below 10). -/
def digChar (d : Nat) : Char :=
  match d with
  | 0 => '0' | 1 => '1' | 2 => '2' | 3 => '3' | 4 => '4'
  | 5 => '5' | 6 => '6' | 7 => '7' | 8 => '8' | _ => '9'

/-- Decimal digit characters of `n`, without leading zeroes, valid for
`n < 10000`. -/
def natDigits (n : Nat) : List Char := (digitSeq n).map digChar

/-- Model of
`d.toLocaleDateString(undefined, { day: "numeric", month: "short", year: "numeric" })`
under a day-first default locale (e.g. en-GB) with the UTC calendar day of
the parsed ISO date: `"<day> <abbreviated month> <year>"`, e.g.
`"1 Aug 2025"`. -/
def renderYMD (d : YMD) : String :=
  (⟨natDigits d.day⟩ : String) ++ " " ++ monthAbbrev d.month ++ " " ++ (⟨natDigits d.year⟩ : String)

/-- Translation of `formatWhen` (src/utils/format.ts): `null` result is
`none`; a missing or blank date string yields `none`; a parseable date is
rendered; an unparseable non-blank string is returned trimmed. -/
def formatWhen (dateStr : Option String) : Option String :=
  match dateStr with
  | none => none
  | some ds =>
    if ds = "" then none
    else
      let s := jsTrimS ds
      if s = "" then none
      else
        match jsParseDate s.data with
        | some d => some (renderYMD d)
        | none => some s

/-! ### Enumerations of the compose options -/

inductive Audience | internal | client | stakeholder
deriving DecidableEq, Repr

inductive Tone | concise | formal | friendly | persuasive | casual
deriving DecidableEq, Repr

inductive EmailType | summary | followUp | actionOnly
deriving DecidableEq, Repr

/-- Translation of the `Action` record type of src/utils/format.ts
(the `ActionItem` of the spec). -/
structure Action where
  owner : String
  task : String
  due : String
deriving DecidableEq, Repr

/-- The argument record of `composeEmail` (src/utils/format.ts): the
presentation options together with the extraction fields. -/
structure ComposeOpts where
  title : Option String
  date : Option String
  participants : Option String
  audience : Audience
  tone : Tone
  type : EmailType
  summary : String
  decisions : List String
  actions : List Action
  questions : List String

/-- Translation of `introLine` (src/utils/format.ts).  `opts.title?.trim()`
is `title.map jsTrimS`; the `??` defaults fire only when the title is
absent (`none`), not when it trims to the empty string. -/
def introLine (tone : Tone) (title : Option String) (date : Option String) : String :=
  let t : Option String := title.map jsTrimS
  let whenStr : String := (formatWhen date).getD "today"
  match tone with
  | .formal =>
    "The key takeaways from the \"" ++ t.getD "meeting" ++ "\" session held on "
      ++ whenStr ++ " are summarised below."
  | .friendly =>
    "Thanks for joining \"" ++ t.getD "our meeting" ++ "\" on " ++ whenStr
      ++ ". Here’s a clear recap and what’s next."
  | .persuasive =>
    "Following \"" ++ t.getD "the meeting" ++ "\" on " ++ whenStr
      ++ ", here’s where we landed and what we need to move forward."
  | .casual =>
    "Hey folks — quick recap from \"" ++ t.getD "today’s chat" ++ "\" (" ++ whenStr ++ ")."
  | .concise =>
    "Here’s a quick follow-up from \"" ++ t.getD "the meeting" ++ "\" (" ++ whenStr ++ ")."

/-- Translation of `signoffFor` (src/utils/format.ts). -/
def signoffFor (tone : Tone) : String :=
  match tone with
  | .formal => "Best regards,"
  | .persuasive => "Thanks in advance,"
  | .casual => "Cheers,"
  | .friendly => "Thanks so much,"
  | .concise => "Thanks!"

/-- The greeting computed at the top of `composeEmail`. -/
def greetingFor (audience : Audience) : String :=
  match audience with
  | .client => "Hi team,"
  | .stakeholder => "Hello,"
  | .internal => "Hi all,"

/-- The attendees text of `composeEmail`:
`(opts.participants && opts.participants.trim()) ? opts.participants.trim() : "—"`. -/
def attendeesOf (participants : Option String) : String :=
  match participants with
  | none => "—"
  | some s => if jsTrimS s = "" then "—" else jsTrimS s

/-- One action bullet of `composeEmail`:
``- ${a.owner || "TBD"} — ${a.task}${due}`` with the due suffix appended
only when `a.due` is non-empty. -/
def actionBullet (a : Action) : String :=
  "- " ++ (if a.owner = "" then "TBD" else a.owner) ++ " — " ++ a.task
    ++ (if a.due = "" then "" else " — " ++ a.due)

/-- The section parts pushed by `composeEmail` between the header
(greeting, intro, attendees, blank) and the sign-off: the conditional
Summary, Decisions, Action Items and Open Questions blocks, in push
order. -/
def bodySections (o : ComposeOpts) : List String :=
  (if o.type = EmailType.actionOnly then []
   else
     (if jsTrimS o.summary = "" then [] else ["Summary", jsTrimS o.summary, ""])
     ++ (if o.decisions = [] then []
         else ["Decisions"] ++ o.decisions.map (fun d => "- " ++ d) ++ [""]))
  ++ (if o.actions = [] then []
      else ["Action Items"] ++ o.actions.map actionBullet ++ [""])
  ++ (if o.type = EmailType.actionOnly then []
      else if o.questions = [] then []
      else ["Open Questions"] ++ o.questions.map (fun q => "- " ++ q) ++ [""])

/-- The `parts` array built by `composeEmail` (src/utils/format.ts),
in push order. -/
def composeParts (o : ComposeOpts) : List String :=
  [greetingFor o.audience,
   introLine o.tone o.title o.date,
   "Attendees: " ++ attendeesOf o.participants,
   ""]
  ++ bodySections o
  ++ [signoffFor o.tone ++ "\n\x7byour name\x7d"]

/-- `Array.prototype.join("\n")`. -/
def joinNL : List String → String
  | [] => ""
  | [p] => p
  | p :: ps => p ++ "\n" ++ joinNL ps

/-- Translation of `composeEmail` (src/utils/format.ts): the parts array
joined with newlines. -/
def composeEmail (o : ComposeOpts) : String := joinNL (composeParts o)

/-- `s.slice(0, n)` on characters. -/
def jsSlice (n : Nat) (s : String) : String := ⟨s.data.take n⟩

/-- Translation of `subjectFrom` (src/utils/format.ts). -/
def subjectFrom (title : Option String) (ty : EmailType) : String :=
  let base : String :=
    match title with
    | none => "Meeting"
    | some s => if jsTrimS s = "" then "Meeting" else jsTrimS s
  let suffix : String :=
    match ty with
    | .summary => "summary"
    | .actionOnly => "action items"
    | .followUp => "follow-up"
  let full := base ++ " — " ++ suffix
  if full.length > 70 then jsSlice 70 full else full

/-! ### Heuristic extractor (fallback path of src/app/api/generate/route.ts)

The fallback path runs
`p.notes.split(/\r?\n/).map(l => l.trim()).filter(Boolean)` and then
classifies each line with three regexes.  The regex `test` calls are
modelled compositionally: a match exists iff the (lowercased) line splits
as `pre ++ tok ++ post` where `tok` is one of the alternatives and, for
the word-boundary regex, the characters adjacent to the match are not
word characters. -/

/-- Prepend a character to the first chunk of a split. -/
def consHead (c : Char) : List (List Char) → List (List Char)
  | [] => [[c]]
  | l :: ls => (c :: l) :: ls

/-- Model of `String.prototype.split(/\r?\n/)`: a `\r\n` pair or a lone
`\n` separates; a lone `\r` is ordinary text. -/
def splitNL : List Char → List (List Char)
  | [] => [[]]
  | '\r' :: '\n' :: rest => [] :: splitNL rest
  | '\n' :: rest => [] :: splitNL rest
  | c :: rest => consHead c (splitNL rest)

/-- The filtered line list of the fallback path:
`notes.split(/\r?\n/).map(l => l.trim()).filter(Boolean)`. -/
def cleanLines (notes : String) : List String :=
  (((splitNL notes.data).map jsTrimL).filter (fun l => l ≠ [])).map
    (fun l => (⟨l⟩ : String))

/-- All decompositions `(pre, suf)` with `pre ++ suf = l`, in order of
increasing `pre`; used to model "a regex match starting at some position". -/
def splits : List Char → List (List Char × List Char)
  | [] => [([], [])]
  | c :: cs => ([], c :: cs) :: (splits cs).map (fun p => (c :: p.1, p.2))

/-- Word-boundary condition on the left context of a match. -/
def bdLeft (pre : List Char) : Bool :=
  match pre.getLast? with
  | none => true
  | some c => !isWordChar c

/-- Word-boundary condition on the right context of a match. -/
def bdRight (post : List Char) : Bool :=
  match post with
  | [] => true
  | c :: _ => !isWordChar c

/-- Match a literal alternative at the head of `suf`, returning the rest. -/
def litRest (t : List Char) (suf : List Char) : Option (List Char) :=
  if t.isPrefixOf suf then some (suf.drop t.length) else none

/-- Match the `follow\s*up` alternative at the head of `suf` ("follow",
then a greedy run of whitespace, then "up"), returning the rest. -/
def followRest (suf : List Char) : Option (List Char) :=
  match litRest ("follow".data) suf with
  | none => none
  | some r =>
    let r2 := r.dropWhile jsWS
    if ("up".data).isPrefixOf r2 then some (r2.drop 2) else none

/-- The six literal alternatives of the action regex
`/\b(to|by|due|assign|owner|review|follow\s*up)\b/i`. -/
def actionLits : List (List Char) :=
  ["to".data, "by".data, "due".data, "assign".data, "owner".data, "review".data]

/-- All rests obtainable by matching one action alternative at the head
of `suf`. -/
def actionRests (suf : List Char) : List (List Char) :=
  (actionLits.filterMap (fun t => litRest t suf)) ++ (followRest suf).toList

/-- Model of `/\b(to|by|due|assign|owner|review|follow\s*up)\b/i.test(l)`:
somewhere in the lowercased line, an alternative matches with non-word
characters (or the string ends) on both sides. -/
def reActionTest (l : String) : Bool :=
  (splits (l.data.map Char.toLower)).any
    (fun ps => bdLeft ps.1 && (actionRests ps.2).any bdRight)

/-- Substring containment of one of `toks` in the lowercased line; models
a boundary-free case-insensitive alternation regex `test`. -/
def subTest (toks : List String) (l : String) : Bool :=
  (splits (l.data.map Char.toLower)).any
    (fun ps => toks.any (fun t => (t.data).isPrefixOf ps.2))

/-- The decision regex `/decided|agree|approved?|keep|choose|conclude|push|move/i`
has no word boundaries: it is substring containment.  `approved?` matches
iff `approve` occurs (an occurrence of `approved` contains one of
`approve`), so the optional `d` is dropped from the token. -/
def decisionToks : List String :=
  ["decided", "agree", "approve", "keep", "choose", "conclude", "push", "move"]

/-- Model of the decision regex `test`. -/
def reDecisionTest (l : String) : Bool := subTest decisionToks l

/-- The token part of the question regex `/open|blocker|unknown|pending/i`. -/
def questionToks : List String := ["open", "blocker", "unknown", "pending"]

/-- Model of `/\?$/.test(l) || /open|blocker|unknown|pending/i.test(l)`. -/
def reQuestionTest (l : String) : Bool :=
  (l.data.getLast? == some '?') || subTest questionToks l

/-- Model of `l.match(/^([A-Z][a-zA-Z]+)/)`: an ASCII uppercase letter at
the start of the line followed by a greedy non-empty run of ASCII
letters.  `Char.isUpper`/`Char.isAlpha` are exactly the ASCII tests. -/
def ownerOf (l : String) : Option String :=
  match l.data with
  | [] => none
  | c :: rest =>
    if c.isUpper then
      let run := rest.takeWhile Char.isAlpha
      if run = [] then none else some ⟨c :: run⟩
    else none

/-- The action items of the fallback path (src/app/api/generate/route.ts):
filter by the action regex, cap at 50, derive owner/task/due. -/
def heurActions (notes : String) : List Action :=
  (((cleanLines notes).filter reActionTest).take 50).map
    (fun l => { owner := (ownerOf l).getD "TBD", task := l, due := "" })

/-- The decisions of the fallback path. -/
def heurDecisions (notes : String) : List String :=
  ((cleanLines notes).filter reDecisionTest).take 50

/-- The questions of the fallback path. -/
def heurQuestions (notes : String) : List String :=
  ((cleanLines notes).filter reQuestionTest).take 50

/-- The summary of the fallback path: `lines.slice(0, 8).join(" ")`. -/
def heurSummary (notes : String) : String :=
  String.intercalate " " ((cleanLines notes).take 8)

/-! ### Specification-side match predicates

These predicates restate, as plain existential decompositions, what the
spec means by "contains token t, word-boundary matched" and "contains
token t" (substring).  The lemmas below prove the executable regex
models equivalent to them. -/

/-- A token of the `follow\s*up` family: `follow`, any run of whitespace,
`up` (including the run being empty, i.e. `followup`). -/
def IsFollowTok (tok : List Char) : Prop :=
  ∃ ws, (∀ c ∈ ws, jsWS c = true) ∧ tok = "follow".data ++ ws ++ "up".data

/-- A token of the action trigger alternation. -/
def IsActionTok (tok : List Char) : Prop := tok ∈ actionLits ∨ IsFollowTok tok

/-- Word-boundary condition left of a match: the preceding character, if
any, is not a word character. -/
def BoundaryL (pre : List Char) : Prop :=
  ∀ c, pre.getLast? = some c → isWordChar c = false

/-- Word-boundary condition right of a match: the following character, if
any, is not a word character. -/
def BoundaryR (post : List Char) : Prop :=
  ∀ c, post.head? = some c → isWordChar c = false

/-- The line contains an action trigger token, case-insensitively and
word-boundary matched. -/
def ActionOcc (l : String) : Prop :=
  ∃ pre tok post, l.data.map Char.toLower = pre ++ tok ++ post ∧
    IsActionTok tok ∧ BoundaryL pre ∧ BoundaryR post

/-- The line contains `t` as a case-insensitive substring. -/
def SubOcc (t : String) (l : String) : Prop :=
  ∃ pre post, l.data.map Char.toLower = pre ++ t.data ++ post

/-- The line contains `t`, case-insensitively and word-boundary matched. -/
def WordTokOcc (t : String) (l : String) : Prop :=
  ∃ pre post, l.data.map Char.toLower = pre ++ t.data ++ post ∧
    BoundaryL pre ∧ BoundaryR post

/-! ### Correctness of the executable regex models -/

theorem mem_splits {l : List Char} {p : List Char × List Char} :
    p ∈ splits l ↔ p.1 ++ p.2 = l := by
  induction l generalizing p with
  | nil =>
    obtain ⟨pr, sf⟩ := p
    simp [splits, Prod.ext_iff, List.append_eq_nil]
  | cons c cs ih =>
    obtain ⟨pr, sf⟩ := p
    simp only [splits, List.mem_cons, List.mem_map, Prod.ext_iff]
    constructor
    · rintro (⟨h1, h2⟩ | ⟨⟨a, b⟩, hmem, h1, h2⟩)
      · subst h1; subst h2; rfl
      · subst h1; subst h2
        have := ih.mp hmem
        simpa using congrArg (c :: ·) this
    · intro h
      cases pr with
      | nil => left; exact ⟨rfl, by simpa using h⟩
      | cons x xs =>
        right
        have hx : x = c := by
          have := congrArg (fun t => t.head?) h
          simpa using this
        subst hx
        refine ⟨(xs, sf), ih.mpr ?_, rfl, rfl⟩
        simpa using h

theorem litRest_eq_some {t suf r : List Char} :
    litRest t suf = some r ↔ suf = t ++ r := by
  unfold litRest
  split
  case isTrue h =>
    rw [ List.isPrefixOf_iff_prefix] at h
    obtain ⟨r2, rfl⟩ := h
    rw [List.drop_left]
    constructor
    · rintro h2; injection h2 with h2; rw [h2]
    · intro h2
      have := (List.append_right_inj t).mp h2
      rw [this]
  case isFalse h =>
    constructor
    · rintro ⟨⟩
    · intro h2
      exfalso
      exact h (by rw [ List.isPrefixOf_iff_prefix]; exact ⟨r, h2.symm⟩)

theorem dropWhile_ws_append {rest : List Char}
    (hhd : ∀ c, rest.head? = some c → jsWS c = false) :
    ∀ ws, (∀ c ∈ ws, jsWS c = true) → (ws ++ rest).dropWhile jsWS = rest := by
  intro ws
  induction ws with
  | nil =>
    intro _
    cases rest with
    | nil => rfl
    | cons c cs =>
      have := hhd c rfl
      simp [List.dropWhile_cons, this]
  | cons w ws ih =>
    intro hws
    have hw : jsWS w = true := hws w (by simp)
    simp only [List.cons_append, List.dropWhile_cons, hw, if_true]
    exact ih (fun c hc => hws c (List.mem_cons_of_mem _ hc))

theorem followRest_eq_some {suf r : List Char} :
    followRest suf = some r ↔
      ∃ ws, (∀ c ∈ ws, jsWS c = true) ∧ suf = "follow".data ++ ws ++ "up".data ++ r := by
  unfold followRest
  constructor
  · intro h
    cases hlit : litRest ("follow".data) suf with
    | none => rw [hlit] at h; cases h
    | some r1 =>
      rw [hlit] at h
      simp only at h
      split at h
      case isTrue hpre =>
        injection h with h
        rw [ List.isPrefixOf_iff_prefix] at hpre
        obtain ⟨rest2, hr2⟩ := hpre
        have hsuf := litRest_eq_some.mp hlit
        refine ⟨r1.takeWhile jsWS, fun c hc => List.mem_takeWhile_imp hc, ?_⟩
        have hsplit : r1 = r1.takeWhile jsWS ++ r1.dropWhile jsWS :=
          (List.takeWhile_append_dropWhile jsWS r1).symm
        have hdrop : r1.dropWhile jsWS = "up".data ++ rest2 := hr2.symm
        rw [hdrop] at hsplit
        have hrr : r = rest2 := by
          rw [← h, hdrop]
          exact List.drop_left' (by rfl)
        rw [hsuf, hrr]
        conv_lhs => rw [hsplit]
        simp
      case isFalse hpre => cases h
  · rintro ⟨ws, hws, rfl⟩
    have hlit : litRest ("follow".data) ("follow".data ++ ws ++ "up".data ++ r)
        = some (ws ++ "up".data ++ r) := by
      apply litRest_eq_some.mpr
      simp
    rw [hlit]
    simp only
    have hdrop : (ws ++ "up".data ++ r).dropWhile jsWS = "up".data ++ r := by
      rw [List.append_assoc]
      refine dropWhile_ws_append ?_ ws hws
      intro c hc
      simp only [List.cons_append, List.head?_cons, Option.some.injEq] at hc
      rw [← hc]
      decide
    rw [hdrop]
    have hpre : ("up".data).isPrefixOf ("up".data ++ r) = true := by
      rw [ List.isPrefixOf_iff_prefix]; exact ⟨r, rfl⟩
    rw [hpre]
    simp [@List.drop_left' _ ("up".data) r 2 (by decide)]

theorem mem_actionRests {suf r : List Char} :
    r ∈ actionRests suf ↔ ∃ tok, IsActionTok tok ∧ suf = tok ++ r := by
  unfold actionRests
  simp only [List.mem_append, List.mem_filterMap, Option.mem_toList, Option.mem_def]
  constructor
  · rintro (⟨t, ht, hlit⟩ | hfol)
    · exact ⟨t, Or.inl ht, litRest_eq_some.mp hlit⟩
    · obtain ⟨ws, hws, hsuf⟩ := followRest_eq_some.mp hfol
      exact ⟨"follow".data ++ ws ++ "up".data, Or.inr ⟨ws, hws, rfl⟩, hsuf⟩
  · rintro ⟨tok, htok | hfol, hsuf⟩
    · exact Or.inl ⟨tok, htok, litRest_eq_some.mpr hsuf⟩
    · right
      obtain ⟨ws, hws, rfl⟩ := hfol
      apply followRest_eq_some.mpr
      exact ⟨ws, hws, hsuf⟩

theorem bdLeft_iff {pre : List Char} : bdLeft pre = true ↔ BoundaryL pre := by
  unfold bdLeft BoundaryL
  cases h : pre.getLast? with
  | none => simp
  | some c => simp [h]

theorem bdRight_iff {post : List Char} : bdRight post = true ↔ BoundaryR post := by
  unfold bdRight BoundaryR
  cases post with
  | nil => simp
  | cons c cs => simp

theorem reActionTest_iff {l : String} : reActionTest l = true ↔ ActionOcc l := by
  unfold reActionTest ActionOcc
  rw [List.any_eq_true]
  constructor
  · rintro ⟨⟨pre, sf⟩, hmem, hcond⟩
    rw [mem_splits] at hmem
    simp only [Bool.and_eq_true, List.any_eq_true] at hcond
    obtain ⟨hbl, r, hrmem, hbr⟩ := hcond
    obtain ⟨tok, htok, rfl⟩ := mem_actionRests.mp hrmem
    exact ⟨pre, tok, r, by rw [← hmem]; simp, htok, bdLeft_iff.mp hbl, bdRight_iff.mp hbr⟩
  · rintro ⟨pre, tok, post, heq, htok, hbl, hbr⟩
    refine ⟨(pre, tok ++ post), mem_splits.mpr ?_, ?_⟩
    · simp [heq]
    · simp only [Bool.and_eq_true, List.any_eq_true]
      refine ⟨bdLeft_iff.mpr hbl, post, ?_, bdRight_iff.mpr hbr⟩
      exact mem_actionRests.mpr ⟨tok, htok, rfl⟩

theorem subTest_iff {toks : List String} {l : String} :
    subTest toks l = true ↔ ∃ t ∈ toks, SubOcc t l := by
  unfold subTest SubOcc
  rw [List.any_eq_true]
  constructor
  · rintro ⟨⟨pre, sf⟩, hmem, hcond⟩
    rw [mem_splits] at hmem
    rw [List.any_eq_true] at hcond
    obtain ⟨t, ht, hpre⟩ := hcond
    rw [ List.isPrefixOf_iff_prefix] at hpre
    obtain ⟨post, rfl⟩ := hpre
    exact ⟨t, ht, pre, post, by rw [← hmem]; simp⟩
  · rintro ⟨t, ht, pre, post, heq⟩
    refine ⟨(pre, t.data ++ post), mem_splits.mpr (by simp [heq]), ?_⟩
    rw [List.any_eq_true]
    refine ⟨t, ht, ?_⟩
    rw [ List.isPrefixOf_iff_prefix]
    exact ⟨post, rfl⟩

/-- Executable word-boundary matcher for a single literal token; used to
decide `WordTokOcc`. -/
def wbTestOne (t : String) (l : String) : Bool :=
  (splits (l.data.map Char.toLower)).any
    (fun ps => bdLeft ps.1 && ((litRest t.data ps.2).toList.any bdRight))

theorem wbTestOne_iff {t l : String} : wbTestOne t l = true ↔ WordTokOcc t l := by
  unfold wbTestOne WordTokOcc
  rw [List.any_eq_true]
  constructor
  · rintro ⟨⟨pre, sf⟩, hmem, hcond⟩
    rw [mem_splits] at hmem
    simp only [Bool.and_eq_true, List.any_eq_true, Option.mem_toList, Option.mem_def] at hcond
    obtain ⟨hbl, r, hlit, hbr⟩ := hcond
    have hsf := litRest_eq_some.mp hlit
    refine ⟨pre, r, ?_, bdLeft_iff.mp hbl, bdRight_iff.mp hbr⟩
    simp only at hmem
    rw [hsf] at hmem
    rw [← hmem, List.append_assoc]
  · rintro ⟨pre, post, heq, hbl, hbr⟩
    refine ⟨(pre, t.data ++ post), mem_splits.mpr (by simp [heq]), ?_⟩
    simp only [Bool.and_eq_true, List.any_eq_true, Option.mem_toList, Option.mem_def]
    exact ⟨bdLeft_iff.mpr hbl, post, litRest_eq_some.mpr rfl, bdRight_iff.mpr hbr⟩

instance : DecidablePred ActionOcc :=
  fun _ => decidable_of_iff _ reActionTest_iff

instance (t l : String) : Decidable (SubOcc t l) :=
  decidable_of_iff _ (by simpa using @subTest_iff [t] l)

instance (t l : String) : Decidable (WordTokOcc t l) :=
  decidable_of_iff _ wbTestOne_iff

/-! ### String append helpers -/

theorem sapp_assoc (a b c : String) : a ++ b ++ c = a ++ (b ++ c) :=
  String.ext (by simp)

/-! ### Owner extraction, spec side -/

/-- The owner rule as amended: a leading run of at least two ASCII
letters whose first letter is uppercase (the source regex
`/^([A-Z][a-zA-Z]+)/` requires the `+` to consume at least one letter). -/
def specLeadingCapWord (l : String) : Option String :=
  match l.data.takeWhile Char.isAlpha with
  | c :: d :: rest => if c.isUpper then some ⟨c :: d :: rest⟩ else none
  | _ => none

/-- The owner rule exactly as the claim words it: the leading contiguous
run of letters, required only to start with an uppercase letter (so a
single capital letter qualifies). -/
def claimLeadingCapRun (l : String) : Option String :=
  match l.data with
  | [] => none
  | c :: rest => if c.isUpper then some ⟨c :: rest.takeWhile Char.isAlpha⟩ else none

theorem ownerOf_eq_spec (l : String) : ownerOf l = specLeadingCapWord l := by
  cases hd : l.data with
  | nil => simp [ownerOf, specLeadingCapWord, hd]
  | cons c cs =>
    by_cases hu : c.isUpper
    · have ha : c.isAlpha = true := by simp [Char.isAlpha, hu]
      cases hw : cs.takeWhile Char.isAlpha with
      | nil => simp [ownerOf, specLeadingCapWord, hd, List.takeWhile_cons, hu, ha, hw]
      | cons d rest => simp [ownerOf, specLeadingCapWord, hd, List.takeWhile_cons, hu, ha, hw]
    · by_cases ha : c.isAlpha = true
      · cases hw : cs.takeWhile Char.isAlpha with
        | nil => simp [ownerOf, specLeadingCapWord, hd, List.takeWhile_cons, hu, ha, hw]
        | cons d rest => simp [ownerOf, specLeadingCapWord, hd, List.takeWhile_cons, hu, ha, hw]
      · simp [ownerOf, specLeadingCapWord, hd, List.takeWhile_cons, hu, ha]

/-! ### Space-joined summary, spec side -/

/-- "Joined with a single space separator", stated recursively. -/
def joinSp : List String → String
  | [] => ""
  | [x] => x
  | x :: xs => x ++ " " ++ joinSp xs

theorem intercalate_go_eq (as : List String) : ∀ acc : String,
    String.intercalate.go acc " " as = acc ++ joinSp ("" :: as) := by
  induction as with
  | nil =>
    intro acc
    show acc = acc ++ joinSp [""]
    simp [joinSp]
  | cons a as ih =>
    intro acc
    show String.intercalate.go (acc ++ " " ++ a) " " as = _
    rw [ih]
    apply String.ext
    cases as with
    | nil => simp [joinSp]
    | cons b bs => simp [joinSp]

theorem intercalate_space_eq (L : List String) :
    String.intercalate " " L = joinSp L := by
  cases L with
  | nil => rfl
  | cons a as =>
    show String.intercalate.go a " " as = joinSp (a :: as)
    rw [intercalate_go_eq]
    apply String.ext
    cases as with
    | nil => simp [joinSp]
    | cons b bs => simp [joinSp]

/-! ### Claim C2: the heuristic action extractor -/

/-- **C2, counterexample.**  The claim derives the owner from "a contiguous
run of letters starting with an uppercase letter at the start of the
trimmed line"; a single capital letter is such a run.  On the line
`"A to review docs"` that rule yields owner `"A"`, but the extractor
(regex `/^([A-Z][a-zA-Z]+)/`, which demands at least two letters) yields
the placeholder `"TBD"`. -/
theorem heurActions_owner_counterexample :
    claimLeadingCapRun "A to review docs" = some "A" ∧
    heurActions "A to review docs" =
      [{ owner := "TBD", task := "A to review docs", due := "" }] ∧
    ({ owner := "TBD", task := "A to review docs", due := "" } : Action).owner ≠ "A" := by
  refine ⟨by decide, by decide, by decide⟩

/-- **C2, amended.**  The heuristic extractor's action items are exactly
the trimmed non-empty lines containing an action trigger token (`to`,
`by`, `due`, `assign`, `owner`, `review`, `follow`+whitespace+`up`
including `followup`), word-boundary matched and case-insensitive, in
order of first appearance and capped at 50; each item's owner is the
leading run of **at least two** ASCII letters starting with an uppercase
letter when present and `"TBD"` otherwise, its task is the full trimmed
line, and its due is the empty string. -/
theorem heurActions_characterization (notes : String) :
    heurActions notes =
      (((cleanLines notes).filter (fun l => decide (ActionOcc l))).take 50).map
        (fun l => { owner := (specLeadingCapWord l).getD "TBD", task := l, due := "" }) := by
  unfold heurActions
  have hf : reActionTest = (fun l => decide (ActionOcc l)) := by
    funext l
    rw [Bool.eq_iff_iff]
    simp [ reActionTest_iff]
  have hm : (fun l => ({ owner := (ownerOf l).getD "TBD", task := l, due := "" } : Action))
      = (fun l => { owner := (specLeadingCapWord l).getD "TBD", task := l, due := "" }) := by
    funext l
    rw [ownerOf_eq_spec]
  rw [hf, hm]

/-! ### Claim C3: word-boundary versus substring matching -/

/-- **C3, counterexample.**  The line `"We will remove the banner"`
contains a decision trigger word only as a substring (`move` inside
`remove`); the claim says such a line is not classified as a decision,
but the extractor's decision regex has no word boundaries and classifies
it. -/
theorem decision_substring_counterexample :
    heurDecisions "We will remove the banner" = ["We will remove the banner"] ∧
    ¬ ∃ t ∈ decisionToks, WordTokOcc t "We will remove the banner" := by
  constructor
  · decide
  · rintro ⟨t, ht, hocc⟩
    have hb := wbTestOne_iff.mpr hocc
    fin_cases ht <;> exact absurd hb (by decide)

/-- **C3, amended.**  Only the action category is word-boundary matched;
the decision category and the token part of the question category are
plain case-insensitive substring containment (so `move` inside `remove`
does classify a line as a decision). -/
theorem heuristic_matching_semantics :
    (∀ l : String, reActionTest l = true ↔ ActionOcc l) ∧
    (∀ l : String, reDecisionTest l = true ↔ ∃ t ∈ decisionToks, SubOcc t l) ∧
    (∀ l : String, reQuestionTest l = true ↔
      (l.data.getLast? = some '?' ∨ ∃ t ∈ questionToks, SubOcc t l)) := by
  refine ⟨fun l => reActionTest_iff, fun l => subTest_iff, fun l => ?_⟩
  unfold reQuestionTest
  rw [Bool.or_eq_true, subTest_iff]
  simp

/-! ### Claim C5: the heuristic summary -/

/-- **C5, counterexample.**  The claim says a casual tone prefixes the
summary with a casual opener; the extractor computes the summary without
looking at the tone, and on `"met on tuesday to review"` the summary is
exactly the joined line list with no non-empty opener prefixed. -/
theorem summary_no_casual_opener_counterexample :
    heurSummary "met on tuesday to review" = "met on tuesday to review" ∧
    ¬ ∃ opener : String, opener ≠ "" ∧
        heurSummary "met on tuesday to review" =
          opener ++ "met on tuesday to review" := by
  have h1 : heurSummary "met on tuesday to review" = "met on tuesday to review" := by
    decide
  refine ⟨h1, ?_⟩
  rintro ⟨op, hne, heq⟩
  rw [h1] at heq
  have hlen := congrArg String.length heq
  rw [String.length_append] at hlen
  have hz : op.length = 0 := by omega
  apply hne
  apply String.ext
  have := congrArg String.data heq
  cases hdata : op.data with
  | nil => simp [hdata]
  | cons c cs =>
    exfalso
    have : op.length = cs.length + 1 := by
      show op.data.length = cs.length + 1
      rw [hdata]; rfl
    omega

/-- **C5, amended.**  For every notes string, the heuristic summary is the
first 8 trimmed non-empty lines joined with a single space, with no
tone-dependent prefix for any tone (the casual opener appears only in the
composer's intro line). -/
theorem heurSummary_characterization (notes : String) :
    heurSummary notes = joinSp ((cleanLines notes).take 8) := by
  unfold heurSummary
  exact intercalate_space_eq _

/-! ### Lines of the composed body -/

/-- Split a character list at every occurrence of `sep`. -/
def splitChar (sep : Char) : List Char → List (List Char)
  | [] => [[]]
  | x :: xs => if x = sep then [] :: splitChar sep xs else consHead x (splitChar sep xs)

/-- The lines of a composed body (its newline-separated pieces); this is
what "a section heading line of the body" quantifies over. -/
def linesOf (s : String) : List String :=
  (splitChar '\n' s.data).map (fun l => (⟨l⟩ : String))

/-- `s` contains no newline character. -/
def noNL (s : String) : Prop := '\n' ∉ s.data

instance (s : String) : Decidable (noNL s) :=
  inferInstanceAs (Decidable ('\n' ∉ s.data))

theorem splitChar_ne_nil (sep : Char) (l : List Char) : splitChar sep l ≠ [] := by
  cases l with
  | nil => simp [splitChar]
  | cons x xs =>
    unfold splitChar
    split
    · simp
    · unfold consHead
      split <;> simp

theorem consHead_append (c : Char) (L M : List (List Char)) (h : L ≠ []) :
    consHead c (L ++ M) = consHead c L ++ M := by
  cases L with
  | nil => exact absurd rfl h
  | cons y ys => rfl

theorem splitChar_append_sep (sep : Char) (as bs : List Char) :
    splitChar sep (as ++ sep :: bs) = splitChar sep as ++ splitChar sep bs := by
  induction as with
  | nil => simp [splitChar]
  | cons x xs ih =>
    simp only [List.cons_append, splitChar, List.append_eq]
    by_cases hx : x = sep
    · rw [if_pos hx, if_pos hx, ih]
      rfl
    · rw [if_neg hx, if_neg hx, ih]
      exact consHead_append x _ _ (splitChar_ne_nil sep xs)

theorem splitChar_no_sep {sep : Char} : ∀ {l : List Char}, (∀ c ∈ l, c ≠ sep) →
    splitChar sep l = [l] := by
  intro l
  induction l with
  | nil => intro _; rfl
  | cons x xs ih =>
    intro h
    have hx : x ≠ sep := h x (by simp)
    unfold splitChar
    rw [if_neg hx, ih (fun c hc => h c (List.mem_cons_of_mem _ hc))]
    rfl

theorem linesOf_of_noNL {s : String} (h : noNL s) : linesOf s = [s] := by
  unfold linesOf
  rw [splitChar_no_sep (fun c hc hceq => h (by rw [← hceq]; exact hc))]
  rfl

theorem joinNL_cons_of_ne {x : String} {xs : List String} (h : xs ≠ []) :
    joinNL (x :: xs) = x ++ "\n" ++ joinNL xs := by
  cases xs with
  | nil => exact absurd rfl h
  | cons y ys => rfl

theorem linesOf_append_nl (a b : String) :
    linesOf (a ++ "\n" ++ b) = linesOf a ++ linesOf b := by
  unfold linesOf
  have hdata : (a ++ "\n" ++ b).data = a.data ++ '\n' :: b.data := by
    simp
  rw [hdata, splitChar_append_sep, List.map_append]

theorem linesOf_joinNL : ∀ parts : List String, parts ≠ [] →
    linesOf (joinNL parts) = parts.flatMap linesOf := by
  intro parts
  induction parts with
  | nil => intro h; exact absurd rfl h
  | cons p ps ih =>
    intro _
    cases ps with
    | nil => simp [joinNL]
    | cons q qs =>
      rw [joinNL_cons_of_ne (by simp), linesOf_append_nl, ih (by simp)]
      simp [List.flatMap_cons]

theorem joinNL_snoc : ∀ (xs : List String) (z : String),
    ∃ m : String, joinNL (xs ++ [z]) = m ++ z := by
  intro xs
  induction xs with
  | nil => intro z; exact ⟨"", by rw [String.empty_append]; rfl⟩
  | cons x xs ih =>
    intro z
    obtain ⟨m, hm⟩ := ih z
    refine ⟨x ++ "\n" ++ m, ?_⟩
    rw [List.cons_append, joinNL_cons_of_ne (by simp), hm]
    apply String.ext
    simp

/-! ### Newline-freeness of the header parts -/

theorem noNL_append {a b : String} (ha : noNL a) (hb : noNL b) : noNL (a ++ b) := by
  unfold noNL at ha hb ⊢
  rw [String.data_append, List.mem_append]
  rintro (h | h)
  · exact ha h
  · exact hb h

theorem mem_jsTrimL {c : Char} {l : List Char} (h : c ∈ jsTrimL l) : c ∈ l := by
  unfold jsTrimL at h
  rw [List.mem_reverse] at h
  have h2 := (List.dropWhile_sublist jsWS).subset h
  rw [List.mem_reverse] at h2
  exact (List.dropWhile_sublist jsWS).subset h2

theorem noNL_jsTrimS {s : String} (h : noNL s) : noNL (jsTrimS s) :=
  fun hc => h (mem_jsTrimL hc)

theorem digChar_ne_nl : ∀ k : Nat, digChar k ≠ '\n' := by
  intro k
  rcases k with _|_|_|_|_|_|_|_|_|k
  all_goals first | decide | exact (by decide : ('9' : Char) ≠ '\n')

theorem noNL_natDigits (n : Nat) : '\n' ∉ natDigits n := by
  intro hmem
  unfold natDigits at hmem
  rw [List.mem_map] at hmem
  obtain ⟨k, _, hk⟩ := hmem
  exact digChar_ne_nl k hk

theorem noNL_monthAbbrev (m : Nat) : noNL (monthAbbrev m) := by
  rcases m with _|_|_|_|_|_|_|_|_|_|_|_|_|m
  all_goals first | decide | exact (by decide : noNL "")

theorem noNL_renderYMD (d : YMD) : noNL (renderYMD d) := by
  unfold renderYMD
  refine noNL_append (noNL_append (noNL_append (noNL_append ?_ (by decide))
    (noNL_monthAbbrev d.month)) (by decide)) ?_
  · exact noNL_natDigits d.day
  · exact noNL_natDigits d.year

theorem noNL_formatWhen {date : Option String}
    (h : ∀ s, date = some s → noNL s) :
    noNL ((formatWhen date).getD "today") := by
  cases date with
  | none => decide
  | some ds =>
    have hds : noNL ds := h ds rfl
    simp only [formatWhen]
    by_cases h0 : ds = ""
    · rw [if_pos h0]; decide
    · rw [if_neg h0]
      by_cases h1 : jsTrimS ds = ""
      · simp only [if_pos h1]; decide
      · simp only [if_neg h1]
        cases hp : jsParseDate (jsTrimS ds).data with
        | some d => simp only [hp, Option.getD_some]; exact noNL_renderYMD d
        | none => simp only [hp, Option.getD_some]; exact noNL_jsTrimS hds

theorem noNL_titleSeg {title : Option String} {dflt : String}
    (h : ∀ s, title = some s → noNL s) (hd : noNL dflt) :
    noNL ((title.map jsTrimS).getD dflt) := by
  cases title with
  | none => exact hd
  | some s => exact noNL_jsTrimS (h s rfl)

theorem noNL_introLine {tone : Tone} {title date : Option String}
    (htitle : ∀ s, title = some s → noNL s)
    (hdate : ∀ s, date = some s → noNL s) :
    noNL (introLine tone title date) := by
  have hw : noNL ((formatWhen date).getD "today") := noNL_formatWhen hdate
  cases tone <;>
    exact noNL_append (noNL_append (noNL_append (noNL_append (by decide)
      (noNL_titleSeg htitle (by decide))) (by decide)) hw) (by decide)

theorem noNL_attendees {participants : Option String}
    (h : ∀ s, participants = some s → noNL s) :
    noNL (attendeesOf participants) := by
  cases participants with
  | none => decide
  | some s =>
    have hs := noNL_jsTrimS (h s rfl)
    simp only [attendeesOf]
    by_cases h1 : jsTrimS s = ""
    · rw [if_pos h1]; decide
    · rw [if_neg h1]; exact hs

/-! ### Claim C6: the invariant frame of the composed body -/

/-- **C6.**  For every `ComposeOpts` — the empty extraction included —
the body is the audience-determined greeting line, the intro line, the
`Attendees:` line with the trimmed participants or an em-dash, then the
sections, and it ends with the tone sign-off and the name placeholder;
in particular it is never empty. -/
theorem composeEmail_structure (o : ComposeOpts) :
    ∃ mid : String,
      composeEmail o =
        greetingFor o.audience ++ "\n" ++ introLine o.tone o.title o.date ++ "\n"
          ++ ("Attendees: " ++ attendeesOf o.participants) ++ "\n" ++ mid
          ++ (signoffFor o.tone ++ "\n\x7byour name\x7d") ∧
      composeEmail o ≠ "" ∧
      greetingFor Audience.client = "Hi team," ∧
      greetingFor Audience.stakeholder = "Hello," ∧
      greetingFor Audience.internal = "Hi all," ∧
      attendeesOf none = "—" ∧
      (∀ p : String, attendeesOf (some p) =
        (if jsTrimS p = "" then "—" else jsTrimS p)) := by
  obtain ⟨m, hm⟩ := joinNL_snoc (bodySections o)
    (signoffFor o.tone ++ "\n\x7byour name\x7d")
  have hparts : composeParts o =
      greetingFor o.audience :: introLine o.tone o.title o.date ::
        ("Attendees: " ++ attendeesOf o.participants) :: "" ::
        (bodySections o ++ [signoffFor o.tone ++ "\n\x7byour name\x7d"]) := by
    simp [composeParts]
  have hbody : composeEmail o =
      greetingFor o.audience ++ "\n" ++ (introLine o.tone o.title o.date ++ "\n"
        ++ (("Attendees: " ++ attendeesOf o.participants) ++ "\n" ++ ("" ++ "\n"
        ++ (m ++ (signoffFor o.tone ++ "\n\x7byour name\x7d"))))) := by
    unfold composeEmail
    rw [hparts, joinNL_cons_of_ne (by simp), joinNL_cons_of_ne (by simp),
      joinNL_cons_of_ne (by simp), joinNL_cons_of_ne (by simp), hm]
  refine ⟨"" ++ "\n" ++ m, ?_, ?_, rfl, rfl, rfl, rfl, fun p => rfl⟩
  · rw [hbody]
    apply String.ext
    simp
  · rw [hbody]
    intro hempty
    have hlen := congrArg String.length hempty
    have hg : 0 < (greetingFor o.audience).length := by
      cases o.audience <;> decide
    rw [String.length_append, String.length_append] at hlen
    simp at hlen
    omega

/-! ### Claim C1: action-only composition suppresses the other sections -/

theorem head?_append_left {a b : String} {c : Char}
    (h : a.data.head? = some c) : (a ++ b).data.head? = some c := by
  rw [String.data_append, List.head?_append, h]
  rfl

/-- **C1.**  With `type = action-only` and single-line inputs (no
embedded newline in the options' strings or the action fields), no line
of the composed body is a `Summary`, `Decisions` or `Open Questions`
heading — however non-empty the extraction's summary, decisions and
questions are — while a non-empty actions sequence still yields an
`Action Items` heading line. -/
theorem actionOnly_suppresses_sections (o : ComposeOpts)
    (hty : o.type = EmailType.actionOnly)
    (hact : ∀ a ∈ o.actions, noNL a.owner ∧ noNL a.task ∧ noNL a.due)
    (htitle : ∀ s, o.title = some s → noNL s)
    (hdate : ∀ s, o.date = some s → noNL s)
    (hpart : ∀ s, o.participants = some s → noNL s) :
    "Summary" ∉ linesOf (composeEmail o) ∧
    "Decisions" ∉ linesOf (composeEmail o) ∧
    "Open Questions" ∉ linesOf (composeEmail o) ∧
    (o.actions ≠ [] → "Action Items" ∈ linesOf (composeEmail o)) := by
  obtain ⟨title, date, pcp, aud, tone, ty, summ, decs, acts, qs⟩ := o
  simp only at hty hact htitle hdate hpart
  subst hty
  have hsections : bodySections
      ⟨title, date, pcp, aud, tone, EmailType.actionOnly, summ, decs, acts, qs⟩ =
      (if acts = [] then [] else ["Action Items"] ++ acts.map actionBullet ++ [""]) := by
    simp [bodySections]
  have hne : composeParts
      ⟨title, date, pcp, aud, tone, EmailType.actionOnly, summ, decs, acts, qs⟩ ≠ [] := by
    simp [composeParts]
  have hmem : ∀ x : String,
      x ∈ linesOf (composeEmail
        ⟨title, date, pcp, aud, tone, EmailType.actionOnly, summ, decs, acts, qs⟩) ↔
      ∃ p ∈ composeParts
        ⟨title, date, pcp, aud, tone, EmailType.actionOnly, summ, decs, acts, qs⟩,
        x ∈ linesOf p := by
    intro x
    unfold composeEmail
    rw [linesOf_joinNL _ hne, List.mem_flatMap]
  have hhead : ∀ x ∈ linesOf (composeEmail
      ⟨title, date, pcp, aud, tone, EmailType.actionOnly, summ, decs, acts, qs⟩),
      x.data.head? ≠ some 'S' ∧ x.data.head? ≠ some 'D' ∧ x.data.head? ≠ some 'O' := by
    intro x hx
    rw [hmem x] at hx
    obtain ⟨p, hp, hxp⟩ := hx
    simp only [composeParts, hsections, List.mem_append, List.mem_cons,
      List.not_mem_nil, or_false, List.mem_singleton] at hp
    rcases hp with ((hp | hp | hp | hp) | hp) | hp
    · -- greeting
      subst hp
      have hg : noNL (greetingFor aud) := by cases aud <;> decide
      rw [linesOf_of_noNL hg, List.mem_singleton] at hxp
      subst hxp
      cases aud <;> exact ⟨by decide, by decide, by decide⟩
    · -- intro line
      subst hp
      have hi : noNL (introLine tone title date) := noNL_introLine htitle hdate
      rw [linesOf_of_noNL hi, List.mem_singleton] at hxp
      subst hxp
      have hih : ∃ c, (introLine tone title date).data.head? = some c ∧
          c ≠ 'S' ∧ c ≠ 'D' ∧ c ≠ 'O' := by
        cases tone <;>
          exact ⟨_, head?_append_left (head?_append_left (head?_append_left
            (head?_append_left rfl))), by decide, by decide, by decide⟩
      obtain ⟨c, hc, h1, h2, h3⟩ := hih
      rw [hc]
      exact ⟨by simp [h1], by simp [h2], by simp [h3]⟩
    · -- attendees line
      subst hp
      have ha : noNL ("Attendees: " ++ attendeesOf pcp) :=
        noNL_append (by decide) (noNL_attendees hpart)
      rw [linesOf_of_noNL ha, List.mem_singleton] at hxp
      subst hxp
      have hc : ("Attendees: " ++ attendeesOf pcp).data.head? = some 'A' :=
        head?_append_left rfl
      rw [hc]
      exact ⟨by decide, by decide, by decide⟩
    · -- blank separator
      subst hp
      rw [linesOf_of_noNL (by decide), List.mem_singleton] at hxp
      subst hxp
      exact ⟨by decide, by decide, by decide⟩
    · -- the Action Items block
      by_cases hacts : acts = []
      · rw [if_pos hacts] at hp
        cases hp
      · rw [if_neg hacts] at hp
        simp only [List.mem_append, List.mem_cons, List.not_mem_nil, or_false,
          List.mem_singleton, List.mem_map] at hp
        rcases hp with (hp | ⟨a, ha, hp⟩) | hp
        · subst hp
          rw [linesOf_of_noNL (by decide), List.mem_singleton] at hxp
          subst hxp
          exact ⟨by decide, by decide, by decide⟩
        · subst hp
          obtain ⟨ho, htk, hd⟩ := hact a ha
          have hb : noNL (actionBullet a) := by
            unfold actionBullet
            refine noNL_append (noNL_append (noNL_append (noNL_append (by decide)
              ?_) (by decide)) htk) ?_
            · by_cases h0 : a.owner = ""
              · rw [if_pos h0]; decide
              · rw [if_neg h0]; exact ho
            · by_cases h0 : a.due = ""
              · rw [if_pos h0]; decide
              · rw [if_neg h0]; exact noNL_append (by decide) hd
          rw [linesOf_of_noNL hb, List.mem_singleton] at hxp
          subst hxp
          have hc : (actionBullet a).data.head? = some '-' := by
            unfold actionBullet
            exact head?_append_left (head?_append_left (head?_append_left
              (head?_append_left rfl)))
          rw [hc]
          exact ⟨by decide, by decide, by decide⟩
        · subst hp
          rw [linesOf_of_noNL (by decide), List.mem_singleton] at hxp
          subst hxp
          exact ⟨by decide, by decide, by decide⟩
    · -- sign-off block
      subst hp
      have hsg : (signoffFor tone ++ "\n\x7byour name\x7d") =
          signoffFor tone ++ "\n" ++ "\x7byour name\x7d" := by
        rw [sapp_assoc]
        have : ("\n\x7byour name\x7d" : String) = "\n" ++ "\x7byour name\x7d" := by decide
        rw [← this]
      rw [hsg, linesOf_append_nl] at hxp
      have hso : noNL (signoffFor tone) := by cases tone <;> decide
      rw [linesOf_of_noNL hso, linesOf_of_noNL (by decide)] at hxp
      simp only [List.mem_append, List.mem_singleton] at hxp
      rcases hxp with hxp | hxp
      · subst hxp
        cases tone <;> exact ⟨by decide, by decide, by decide⟩
      · subst hxp
        exact ⟨by decide, by decide, by decide⟩
  refine ⟨?_, ?_, ?_, ?_⟩
  · intro hx
    exact (hhead _ hx).1 rfl
  · intro hx
    exact (hhead _ hx).2.1 rfl
  · intro hx
    exact (hhead _ hx).2.2 rfl
  · intro hne2
    rw [hmem]
    refine ⟨"Action Items", ?_, by decide⟩
    simp [composeParts, hsections, if_neg hne2]

/-! ### Claim C4: the three date-rendering branches -/

/-- **C4.**  `formatWhen`'s fallback chain: a parseable date renders as
`"<day> <abbreviated month> <year>"`; a present, non-blank, unparseable
date renders as its literal trimmed text; an absent date renders as the
word `today`; `"2025-08-01"` renders as `"1 Aug 2025"`; and the intro
line embeds exactly that rendering. -/
theorem formatWhen_three_branches :
    (∀ s d, jsParseDate (jsTrimS s).data = some d →
      (formatWhen (some s)).getD "today" = renderYMD d) ∧
    (∀ s, jsTrimS s ≠ "" → jsParseDate (jsTrimS s).data = none →
      (formatWhen (some s)).getD "today" = jsTrimS s) ∧
    (formatWhen none).getD "today" = "today" ∧
    (formatWhen (some "2025-08-01")).getD "today" = "1 Aug 2025" ∧
    (∀ tone title date, ∃ p q : String,
      introLine tone title date = p ++ ((formatWhen date).getD "today") ++ q) := by
  have hnil : ∀ d : YMD, jsParseDate (jsTrimS "").data = some d → False := by
    intro d h
    have he : jsParseDate (jsTrimS "").data = none := by decide
    rw [he] at h
    cases h
  refine ⟨?_, ?_, rfl, by decide, ?_⟩
  · intro s d h
    simp only [formatWhen]
    by_cases h0 : s = ""
    · subst h0
      exact absurd h (fun hh => hnil d hh)
    · rw [if_neg h0]
      have h1 : jsTrimS s ≠ "" := by
        intro he
        rw [he] at h
        exact hnil d ((by decide : jsParseDate (jsTrimS "").data = jsParseDate ("" : String).data) ▸ h)
      rw [if_neg h1, h]
      rfl
  · intro s h1 h2
    simp only [formatWhen]
    have h0 : s ≠ "" := by
      intro he
      apply h1
      rw [he]
      decide
    rw [if_neg h0, if_neg h1, h2]
    rfl
  · intro tone title date
    cases tone <;> exact ⟨_, _, rfl⟩

/-- **C4, witness.**  The three branches at concrete dates: a parseable
date (with surrounding blanks), free text, and no date at all. -/
theorem formatWhen_three_branches_witness :
    (formatWhen (some " 2025-08-01 ")).getD "today" = "1 Aug 2025" ∧
    (formatWhen (some "next week")).getD "today" = "next week" ∧
    (formatWhen none).getD "today" = "today" := by
  obtain ⟨h1, h2, h3, _, _⟩ := formatWhen_three_branches
  refine ⟨(h1 " 2025-08-01 " ⟨2025, 8, 1⟩ (by decide)).trans (by decide),
    (h2 "next week" (by decide) (by decide)).trans (by decide), h3⟩

/-! ### Claim C7: subject construction and the 70-character cap -/

/-- **C7.**  `subjectFrom` is the hard 70-character truncation of
`"<title-or-Meeting> — <suffix>"` with the suffix determined by the type,
and its output never exceeds 70 characters. -/
theorem subjectFrom_spec :
    (∀ title ty, subjectFrom title ty =
      jsSlice 70 ((match title with
        | none => "Meeting"
        | some s => if jsTrimS s = "" then "Meeting" else jsTrimS s) ++ " — " ++
        (match ty with
        | EmailType.summary => "summary"
        | EmailType.actionOnly => "action items"
        | EmailType.followUp => "follow-up"))) ∧
    (∀ title ty, (subjectFrom title ty).length ≤ 70) := by
  have hmain : ∀ title ty, subjectFrom title ty =
      jsSlice 70 ((match title with
        | none => "Meeting"
        | some s => if jsTrimS s = "" then "Meeting" else jsTrimS s) ++ " — " ++
        (match ty with
        | EmailType.summary => "summary"
        | EmailType.actionOnly => "action items"
        | EmailType.followUp => "follow-up")) := by
    intro title ty
    simp only [subjectFrom]
    split
    · rfl
    case isFalse h =>
      apply String.ext
      show _ = List.take 70 _
      rw [List.take_of_length_le]
      show String.length _ ≤ 70
      omega
  refine ⟨hmain, fun title ty => ?_⟩
  rw [hmain]
  show (List.take 70 _).length ≤ 70
  rw [List.length_take]
  omega

/-! ### Claim C8: the blank-title empty segment -/

/-- **C8** (code bug witnessed): with a present-but-blank title the
intro line renders an empty quoted title segment, because the `??`
default in `introLine` only fires for an absent title, while
`subjectFrom` (using `|| "Meeting"`) does substitute its default. -/
theorem title_blank_empty_segment :
    introLine Tone.formal (some " ") none =
      "The key takeaways from the \"\" session held on today are summarised below." ∧
    introLine Tone.formal none none =
      "The key takeaways from the \"meeting\" session held on today are summarised below." ∧
    subjectFrom (some " ") EmailType.summary = "Meeting — summary" ∧
    subjectFrom none EmailType.summary = "Meeting — summary" := by
  exact ⟨by decide, by decide, by decide, by decide⟩

/-! ### The generate endpoint (src/app/api/generate/route.ts)

JSON values model what `req.json()` / `JSON.parse` produce.  The
validation `bodySchema.safeParse`, the no-API-key fallback path and the
remote-response adaptation of the OpenAI path are translated below.
`JSON.parse` itself is treated as an oracle: the adapter receives
`Option Json`, `none` standing for a parse failure. -/

inductive Json where
  | null
  | bool (b : Bool)
  | num (n : Int)
  | str (s : String)
  | arr (elems : List Json)
  | obj (fields : List (String × Json))

def lookupField : List (String × Json) → String → Option Json
  | [], _ => none
  | (k2, v) :: rest, k => if k2 = k then some v else lookupField rest k

/-- JavaScript property read `data.k` on a JSON value: the field of an
object, `undefined` (here `none`) on a non-object. -/
def getField (j : Json) (k : String) : Option Json :=
  match j with
  | .obj fs => lookupField fs k
  | _ => none

/-- JavaScript truthiness of a JSON value. -/
def truthy (j : Json) : Bool :=
  match j with
  | .null => false
  | .bool b => b
  | .num n => !(n == 0)
  | .str s => !(s == "")
  | .arr _ => true
  | .obj _ => true

mutual

/-- Model of JavaScript template interpolation `${v}` for a JSON value
(`String(v)`): strings verbatim, numbers in decimal, `null`/`true`/
`false` by name, arrays comma-joined with `null` elements blank, plain
objects as `[object Object]`. -/
def jsTemplateStr : Json → String
  | .null => "null"
  | .bool b => cond b "true" "false"
  | .num n => toString n
  | .str s => s
  | .arr xs => arrJoin xs
  | .obj _ => "[object Object]"

def arrJoin : List Json → String
  | [] => ""
  | [x] => elemOf x
  | x :: xs => elemOf x ++ "," ++ arrJoin xs

def elemOf : Json → String
  | .null => ""
  | .bool b => cond b "true" "false"
  | .num n => toString n
  | .str s => s
  | .arr xs => arrJoin xs
  | .obj _ => "[object Object]"
end

/-- The `length` enum of `bodySchema`. -/
inductive LengthOpt | short | medium | long
deriving DecidableEq, Repr

/-- The validated request (`parsed.data` of the route). -/
structure Params where
  title : Option String
  date : Option String
  participants : Option String
  audience : Audience
  tone : Tone
  type : EmailType
  length : LengthOpt
  notes : String

/-- `z.string().optional()`: absent is fine, a string is fine, any other
value (`null` included) is rejected. -/
def asOptString (v : Option Json) : Option (Option String) :=
  match v with
  | none => some none
  | some (.str s) => some (some s)
  | some _ => none

def audienceOf (v : Option Json) : Option Audience :=
  match v with
  | some (.str s) =>
    if s = "internal" then some .internal
    else if s = "client" then some .client
    else if s = "stakeholder" then some .stakeholder
    else none
  | _ => none

def toneOf (v : Option Json) : Option Tone :=
  match v with
  | some (.str s) =>
    if s = "concise" then some .concise
    else if s = "formal" then some .formal
    else if s = "friendly" then some .friendly
    else if s = "persuasive" then some .persuasive
    else if s = "casual" then some .casual
    else none
  | _ => none

def typeOf (v : Option Json) : Option EmailType :=
  match v with
  | some (.str s) =>
    if s = "summary" then some .summary
    else if s = "follow-up" then some .followUp
    else if s = "action-only" then some .actionOnly
    else none
  | _ => none

def lengthOf (v : Option Json) : Option LengthOpt :=
  match v with
  | some (.str s) =>
    if s = "short" then some .short
    else if s = "medium" then some .medium
    else if s = "long" then some .long
    else none
  | _ => none

/-- `z.string().min(10)` for `notes`. -/
def notesOf (v : Option Json) : Option String :=
  match v with
  | some (.str s) => if 10 ≤ s.length then some s else none
  | _ => none

/-- Translation of `bodySchema.safeParse` (src/app/api/generate/route.ts):
the request body must be an object whose fields all validate; unknown
keys are ignored (zod strips them). -/
def parseBody (j : Json) : Option Params :=
  match j with
  | .obj _ =>
    (asOptString (getField j "title")).bind fun t =>
    (asOptString (getField j "date")).bind fun d =>
    (asOptString (getField j "participants")).bind fun pc =>
    (audienceOf (getField j "audience")).bind fun a =>
    (toneOf (getField j "tone")).bind fun tn =>
    (typeOf (getField j "type")).bind fun ty =>
    (lengthOf (getField j "length")).bind fun ln =>
    (notesOf (getField j "notes")).map fun n =>
    ⟨t, d, pc, a, tn, ty, ln, n⟩
  | _ => none

/-- The result record `{ subject, body, actions }` of the route; `actions`
is a raw JSON value because the OpenAI path returns `data.actions ?? []`
without coercion. -/
structure GenResult where
  subject : String
  body : String
  actions : Json

/-- The empty extraction substituted on a parse failure. -/
def emptyExtractionJson : Json :=
  .obj [("summary", .str ""), ("decisions", .arr []),
        ("actions", .arr []), ("questions", .arr [])]

/-- `data.summary ?? ""` followed by `opts.summary?.trim()` in the
composer: absent or `null` becomes `""`; a non-string value makes the
composer's `.trim()` call throw (`none`). -/
def summaryFromJson (data : Json) : Option String :=
  match getField data "summary" with
  | none => some ""
  | some .null => some ""
  | some (.str s) => some s
  | some _ => none

/-- One element of a coerced `actions` array as the composer reads it:
`a.owner || "TBD"`, `${a.task}` (an absent property interpolates as
`undefined`), `a.due ? " — " + a.due : ""`.  A `null` element makes the
property read throw (`none`). -/
def actionFromJson (j : Json) : Option Action :=
  match j with
  | .null => none
  | _ =>
    some
      { owner :=
          match getField j "owner" with
          | some v => if truthy v then jsTemplateStr v else "TBD"
          | none => "TBD",
        task :=
          match getField j "task" with
          | some v => jsTemplateStr v
          | none => "undefined",
        due :=
          match getField j "due" with
          | some v => if truthy v then jsTemplateStr v else ""
          | none => "" }

/-- Translation of the OpenAI-path response handling of the route: on a
parse failure the empty extraction is substituted; non-array
`decisions`/`actions`/`questions` are coerced to empty sequences **for
the composer call**; but the response's `actions` field is
`data.actions ?? []` — the raw parsed value unless it is absent or
`null`.  `none` models the path throwing (caught as a 500 by the
route). -/
def adaptRemote (p : Params) (parsed : Option Json) : Option GenResult :=
  let data : Json :=
    match parsed with
    | none => emptyExtractionJson
    | some j => j
  match summaryFromJson data with
  | none => none
  | some summ =>
    let decs : List String :=
      match getField data "decisions" with
      | some (Json.arr xs) => xs.map jsTemplateStr
      | _ => []
    let qsl : List String :=
      match getField data "questions" with
      | some (Json.arr xs) => xs.map jsTemplateStr
      | _ => []
    let actsOpt : Option (List Action) :=
      match getField data "actions" with
      | some (Json.arr xs) => xs.mapM actionFromJson
      | _ => some []
    match actsOpt with
    | none => none
    | some acts =>
      let body := composeEmail
        ⟨p.title, p.date, p.participants, p.audience, p.tone, p.type,
          summ, decs, acts, qsl⟩
      let respActions : Json :=
        match getField data "actions" with
        | none => Json.arr []
        | some Json.null => Json.arr []
        | some v => v
      some { subject := subjectFrom p.title p.type, body := body,
             actions := respActions }

/-- The fallback (no API key) generation of the route: heuristic
extraction composed into the final email; its response `actions` is the
typed action array. -/
def fallbackGen (p : Params) : GenResult :=
  { subject := subjectFrom p.title p.type,
    body := composeEmail
      ⟨p.title, p.date, p.participants, p.audience, p.tone, p.type,
        heurSummary p.notes, heurDecisions p.notes, heurActions p.notes,
        heurQuestions p.notes⟩,
    actions := Json.arr ((heurActions p.notes).map (fun a =>
      Json.obj [("owner", .str a.owner), ("task", .str a.task),
                ("due", .str a.due)])) }

/-- A route response: a JSON payload or an error status. -/
inductive PostResult where
  | ok (subject body : String) (actions : Json)
  | err (status : Nat) (msg : String)

/-- Translation of the `POST` handler: validate, then follow the
fallback or the OpenAI path; `remote` is the parsed remote response
(`none` = `JSON.parse` failed). -/
def modelPOST (hasKey : Bool) (remote : Option Json) (body : Json) : PostResult :=
  match parseBody body with
  | none => .err 400 "Invalid input"
  | some p =>
    if hasKey then
      match adaptRemote p remote with
      | some r => .ok r.subject r.body r.actions
      | none => .err 500 "Generation failed."
    else
      .ok (fallbackGen p).subject (fallbackGen p).body (fallbackGen p).actions

/-- The `ActionItem` shape of the spec's generate contract, as a check on
a JSON value: an array of objects whose `owner`, `task` and `due` are
strings. -/
def isActionItemB (j : Json) : Bool :=
  match j with
  | .obj fs =>
    (match lookupField fs "owner" with | some (.str _) => true | _ => false)
    && (match lookupField fs "task" with | some (.str _) => true | _ => false)
    && (match lookupField fs "due" with | some (.str _) => true | _ => false)
  | _ => false

def isActionItemArrayB (j : Json) : Bool :=
  match j with
  | .arr xs => xs.all isActionItemB
  | _ => false

/-! ### Claim C9: the remote-response adapter -/

/-- A remote response whose `actions` is a string instead of an array. -/
def strActionsJson : Json :=
  .obj [("summary", .str ""), ("decisions", .arr []),
        ("actions", .str "none"), ("questions", .arr [])]

/-- A fixed valid request for evaluating the adapter. -/
def demoParams : Params :=
  ⟨none, none, none, Audience.internal, Tone.concise, EmailType.followUp,
    LengthOpt.medium, "ten chars or more"⟩

/-- **C9** (code bug witnessed): a parse failure is indeed replaced by
the empty extraction, and a non-array `actions` is coerced away for the
composer — but the response's `actions` field is `data.actions ?? []`,
so the remote response `{"summary":"","decisions":[],"actions":"none",
"questions":[]}` makes the endpoint answer with `actions` equal to the
string `"none"`, which is not a sequence of `ActionItem`. -/
theorem remote_actions_not_coerced :
    (∃ r, adaptRemote demoParams (some strActionsJson) = some r ∧
      r.actions = Json.str "none" ∧
      isActionItemArrayB (Json.str "none") = false ∧
      r.body = composeEmail
        ⟨none, none, none, Audience.internal, Tone.concise, EmailType.followUp,
          "", [], [], []⟩) ∧
    adaptRemote demoParams none = adaptRemote demoParams (some emptyExtractionJson) := by
  exact ⟨⟨_, rfl, rfl, rfl, rfl⟩, rfl⟩

/-! ### Claim C10: the endpoint requires a valid length field -/

/-- **C10.**  A request body whose `length` field is missing, not a
string, or not one of `"short"`, `"medium"`, `"long"` is rejected with
status 400 "Invalid input", whatever the API-key configuration and
whatever the remote extractor would answer — so neither extraction nor
composition affects the response. -/
theorem length_field_required (body : Json)
    (h : ∀ s, getField body "length" = some (Json.str s) →
      s ≠ "short" ∧ s ≠ "medium" ∧ s ≠ "long") :
    ∀ (hasKey : Bool) (remote : Option Json),
      modelPOST hasKey remote body = .err 400 "Invalid input" := by
  intro hasKey remote
  have hl : lengthOf (getField body "length") = none := by
    cases hv : getField body "length" with
    | none => rfl
    | some j =>
      cases j with
      | str s =>
        obtain ⟨h1, h2, h3⟩ := h s hv
        simp [lengthOf, h1, h2, h3]
      | null => rfl
      | bool b => rfl
      | num n => rfl
      | arr xs => rfl
      | obj fs => rfl
  have hp : parseBody body = none := by
    unfold parseBody
    cases body with
    | obj fs => simp [hl]
    | null => rfl
    | bool b => rfl
    | num n => rfl
    | str s => rfl
    | arr xs => rfl
  unfold modelPOST
  rw [hp]

/-- A syntactically valid request body with every field but `length`. -/
def lengthlessBody : Json :=
  Json.obj [("audience", .str "internal"), ("tone", .str "concise"),
            ("type", .str "summary"), ("notes", .str "0123456789ab")]

/-- **C10, witness.**  The length-less body is rejected on both paths,
and adding `length` to it makes the same body pass validation. -/
theorem length_field_required_witness :
    modelPOST true (some emptyExtractionJson) lengthlessBody =
      .err 400 "Invalid input" ∧
    modelPOST false none lengthlessBody = .err 400 "Invalid input" ∧
    (parseBody (Json.obj [("audience", .str "internal"), ("tone", .str "concise"),
      ("type", .str "summary"), ("notes", .str "0123456789ab"),
      ("length", .str "short")])).isSome = true := by
  have h : ∀ s, getField lengthlessBody "length" = some (Json.str s) →
      s ≠ "short" ∧ s ≠ "medium" ∧ s ≠ "long" := by
    intro s hs
    nomatch hs
  exact ⟨length_field_required lengthlessBody h true (some emptyExtractionJson),
    length_field_required lengthlessBody h false none, by decide⟩

/-- **C1, witness.**  A concrete action-only composition with non-empty
summary, decisions, questions and actions: no Summary/Decisions/Open
Questions heading line, and the Action Items heading is present. -/
theorem actionOnly_suppresses_sections_witness :
    "Summary" ∉ linesOf (composeEmail
      ⟨some "Q3", some "2025-08-01", some "Ann, Bo", Audience.client, Tone.formal,
        EmailType.actionOnly, "We met.", ["keep scope"],
        [⟨"Ann", "Ann to draft", "Fri"⟩], ["Open risk?"]⟩) ∧
    "Decisions" ∉ linesOf (composeEmail
      ⟨some "Q3", some "2025-08-01", some "Ann, Bo", Audience.client, Tone.formal,
        EmailType.actionOnly, "We met.", ["keep scope"],
        [⟨"Ann", "Ann to draft", "Fri"⟩], ["Open risk?"]⟩) ∧
    "Open Questions" ∉ linesOf (composeEmail
      ⟨some "Q3", some "2025-08-01", some "Ann, Bo", Audience.client, Tone.formal,
        EmailType.actionOnly, "We met.", ["keep scope"],
        [⟨"Ann", "Ann to draft", "Fri"⟩], ["Open risk?"]⟩) ∧
    "Action Items" ∈ linesOf (composeEmail
      ⟨some "Q3", some "2025-08-01", some "Ann, Bo", Audience.client, Tone.formal,
        EmailType.actionOnly, "We met.", ["keep scope"],
        [⟨"Ann", "Ann to draft", "Fri"⟩], ["Open risk?"]⟩) := by
  obtain ⟨h1, h2, h3, h4⟩ := actionOnly_suppresses_sections
    ⟨some "Q3", some "2025-08-01", some "Ann, Bo", Audience.client, Tone.formal,
      EmailType.actionOnly, "We met.", ["keep scope"],
      [⟨"Ann", "Ann to draft", "Fri"⟩], ["Open risk?"]⟩
    rfl (by decide) (by decide) (by decide) (by decide)
  exact ⟨h1, h2, h3, h4 (by decide)⟩

end NTM
